import Mathlib

/-! Verification of the openclaw-memory storage / retrieval core

Shallow embedding of the core of the `openclaw-memory` repository:

* `src/lib/embeddings.py` — binary vector serialization (`encode_vector` /
  `decode_vector`), `cosine_similarity`, and the `chunk_text` splitter;
* `src/lib/database.py`   — the SQLite-backed chunk store (`add_chunk`,
  `add_embedding`, `search_fulltext`);
* `src/lib/search.py`     — the index search (`search_index`).

Modelling conventions:

* Python floats (IEEE-754 binary64) are modelled as exact rationals `ℚ`;
  `struct.pack('f', x)` is modelled bit-precisely: round-to-nearest-even
  conversion to binary32 followed by little-endian byte serialization.
  Infinities and NaNs are outside the rational model (none of the claims
  exercises them); `-0.0` and `0.0` are both the rational `0` (Python's
  `==` identifies them as well).
* `math.sqrt` and float division in `cosine_similarity` are modelled as
  exact real arithmetic (`Real.sqrt`), the usual idealization.
* SQLite tables are association lists kept in insertion (rowid) order;
  `AUTOINCREMENT` is a `nextId` counter.  The sqlite3 connection never
  enables `PRAGMA foreign_keys`, so declared `FOREIGN KEY` constraints are
  not enforced; the model reflects that.
* Python's stable `list.sort(key=..., reverse=True)` is modelled by a
  stable descending insertion sort (`sortDescBy`); the stable descending
  order is unique, so this has the same observable behaviour.
-/

namespace OpenclawMemory

set_option maxRecDepth 100000
set_option exponentiation.threshold 3000

/- Batteries marks the rational-number field operations `[irreducible]`;
re-enable unfolding locally so that concrete witnesses evaluate. -/
attribute [local semireducible] Rat.mul Rat.add Rat.sub Rat.inv

/-! IEEE-754 binary32 packing (`EmbeddingGenerator.encode_vector` /
`decode_vector`, embeddings.py lines 71-78)

`encode_vector` is `struct.pack(f'{n}f', *v)`: each Python float (a
binary64 value) is converted to binary32 (round to nearest, ties to even;
the conversion overflows to the infinity pattern when the rounded
magnitude reaches `2^128`, as CPython ≥ 3.11 does) and written as 4
little-endian bytes.  `decode_vector` is `struct.unpack`: it splits the
byte string into 4-byte groups (raising `struct.error` when the length is
not a multiple of 4) and reads each group back as a binary32 value. -/

/-- Fuelled floor-log2 on `ℕ` (`log2floorAux fuel n = ⌊log2 n⌋` for
`2 ≤ n < 2 ^ fuel`; `0` for `n < 2`). -/
def log2floorAux : ℕ → ℕ → ℕ
  | 0, _ => 0
  | fuel + 1, n => if 2 ≤ n then log2floorAux fuel (n / 2) + 1 else 0

/-- Floor base-2 logarithm `⌊log2 |x|⌋` of a nonzero rational, computed by scaling with `2 ^ 1300`
so that every binary64 magnitude (all of which are `≥ 2 ^ (-1074)`) lands in
the exact range.  (For `|x| < 2 ^ (-1300)` the result saturates low, which
is irrelevant: such values round to zero in binary32 anyway.) -/
def qlog2floor (x : ℚ) : ℤ :=
  (log2floorAux 4000 (x.num.natAbs * 2 ^ 1300 / x.den) : ℤ) - 1300

/-- Round to nearest integer, ties to even (the IEEE-754 default rounding,
shared by the binary64→binary32 conversion in `struct.pack` and by Python's
`round`). -/
def rneF {α : Type} [LinearOrderedField α] [FloorRing α] (x : α) : ℤ :=
  let f := ⌊x⌋
  if x - f < 1 / 2 then f
  else if 1 / 2 < x - f then f + 1
  else if f % 2 = 0 then f else f + 1

/-- Convert a float (exact rational value of a binary64) to its binary32
bit pattern, as `struct.pack('f', x)` does: round to nearest even, flush
to subnormals below `2 ^ (-126)`, overflow to the infinity pattern
(`expField = 255`) when the rounded magnitude reaches `2 ^ 128`. -/
def toF32bits (x : ℚ) : ℕ :=
  if x = 0 then 0
  else
    let s : ℕ := if x < 0 then 1 else 0
    let a : ℚ := |x|
    let e : ℤ := qlog2floor a
    if e < -126 then
      -- subnormal regime: unit in the last place is 2 ^ (-149)
      let m : ℤ := rneF (a * 2 ^ (149 : ℕ))
      if m < 2 ^ 23 then s * 2 ^ 31 + m.toNat
      else s * 2 ^ 31 + 2 ^ 23              -- rounded up to the least normal
    else
      -- normal regime: 24-bit significand, ulp 2 ^ (e - 23)
      let m : ℤ := rneF (a * (2 : ℚ) ^ (23 - e))
      let me : ℤ × ℤ := if m = 2 ^ 24 then ((2 : ℤ) ^ 23, e + 1) else (m, e)
      if 127 < me.2 then s * 2 ^ 31 + 255 * 2 ^ 23
      else s * 2 ^ 31 + (me.2 + 127).toNat * 2 ^ 23 + (me.1 - 2 ^ 23).toNat

/-- The exact rational value of a binary32 bit pattern; `none` for the
`expField = 255` patterns (infinities and NaNs, which have no rational
value). -/
def valF32 (b : ℕ) : Option ℚ :=
  let s : ℕ := b / 2 ^ 31
  let expF : ℕ := b / 2 ^ 23 % 256
  let mant : ℕ := b % 2 ^ 23
  if expF = 255 then none
  else
    let mag : ℚ :=
      if expF = 0 then (mant : ℚ) * (2 : ℚ) ^ (-149 : ℤ)
      else ((2 : ℚ) ^ 23 + (mant : ℚ)) * (2 : ℚ) ^ ((expF : ℤ) - 150)
    some (if s = 1 then -mag else mag)

/-- Little-endian byte serialization of a 32-bit pattern (native byte order
of `struct.pack` on the little-endian platforms the repo targets). -/
def bytesLE4 (b : ℕ) : List ℕ :=
  [b % 256, b / 256 % 256, b / 2 ^ 16 % 256, b / 2 ^ 24 % 256]

/-- Read a 4-byte little-endian group back as a 32-bit pattern. -/
def leVal4 : List ℕ → ℕ
  | [b0, b1, b2, b3] => b0 + 256 * b1 + 2 ^ 16 * b2 + 2 ^ 24 * b3
  | _ => 0

/-- Model of `struct.pack('f', x)`: the 4 bytes of one component. -/
def pack4 (x : ℚ) : List ℕ :=
  bytesLE4 (toF32bits x)

/-- Split a byte string into consecutive 4-byte groups (a trailing group of
fewer than 4 bytes is never consulted: `decode_vector` guards the length). -/
def groups4 : List ℕ → List (List ℕ)
  | b0 :: b1 :: b2 :: b3 :: rest => [b0, b1, b2, b3] :: groups4 rest
  | _ => []

/-- Model of `EmbeddingGenerator.encode_vector` (embeddings.py line 73):
`struct.pack(f'{len(v)}f', *v)` — the concatenated 4-byte binary32
encodings of the components. -/
def encode_vector (v : List ℚ) : List ℕ :=
  (v.map pack4).flatten

/-- Model of `EmbeddingGenerator.decode_vector` (embeddings.py lines 75-78):
`count = len(data) // 4; struct.unpack(f'{count}f', data)`.  `unpack`
demands a buffer of exactly `4 * count` bytes, so any length that is not a
multiple of 4 raises `struct.error` (modelled as `none`); otherwise it
returns one float — here its binary32 bit pattern — per 4-byte group. -/
def decode_vector (bs : List ℕ) : Option (List ℕ) :=
  if bs.length % 4 = 0 then some ((groups4 bs).map leVal4) else none

/-- Interpret each pattern of a decoded list as its rational value. -/
def valsF32 : List ℕ → Option (List ℚ)
  | [] => some []
  | p :: ps => do
      let v ← valF32 p
      let vs ← valsF32 ps
      pure (v :: vs)

/-- Result of `decode_vector` with each returned pattern interpreted as its rational
value (the float Python hands back). -/
def decode_vals (bs : List ℕ) : Option (List ℚ) :=
  (decode_vector bs).bind valsF32

/-- A float survives the binary32 pack/unpack round trip exactly, i.e. it
is representable in binary32. -/
def f32RoundTrip (x : ℚ) : Prop :=
  valF32 (leVal4 (pack4 x)) = some x

instance (x : ℚ) : Decidable (f32RoundTrip x) := by
  unfold f32RoundTrip; infer_instance

/-- The exact value of the Python float literal `0.1` (the binary64 nearest
to 1/10): `3602879701896397 / 2 ^ 55`. -/
def q01 : ℚ := 3602879701896397 / 36028797018963968

/-! Cosine similarity (`EmbeddingGenerator.cosine_similarity`,
embeddings.py lines 80-92)

```
dot_product = sum(x * y for x, y in zip(a, b))
magnitude_a = math.sqrt(sum(x * x for x in a))
magnitude_b = math.sqrt(sum(y * y for y in b))
if magnitude_a == 0 or magnitude_b == 0:
    return 0.0
return dot_product / (magnitude_a * magnitude_b)
```

Python's `zip` truncates to the shorter argument; each magnitude ranges
over its whole list.  Float arithmetic is idealized as exact real
arithmetic (`Real.sqrt` for `math.sqrt`). -/

/-- Squared magnitude `sum(x * x for x in l)` of a vector. -/
def sumSq (l : List ℚ) : ℚ := (l.map (fun x => x * x)).sum

/-- Dot product `sum(x * y for x, y in zip(a, b))`; `zipWith` truncates to the
shorter list exactly as Python's `zip` does. -/
def dotZip (a b : List ℚ) : ℚ := (List.zipWith (· * ·) a b).sum

/-- Magnitude `math.sqrt(sum(x * x for x in l))` of a vector. -/
noncomputable def magnitude (l : List ℚ) : ℝ := Real.sqrt ((sumSq l : ℚ) : ℝ)

/-- Model of `EmbeddingGenerator.cosine_similarity` (embeddings.py lines 80-92). -/
noncomputable def cosine_similarity (a b : List ℚ) : ℝ :=
  if magnitude a = 0 ∨ magnitude b = 0 then 0
  else ((dotZip a b : ℚ) : ℝ) / (magnitude a * magnitude b)

/-- The value claim C9 specifies for mismatched lengths: the dot product
over the common prefix of `a` and `b` divided by the product of the FULL
magnitudes of `a` and of `b` (which is not the cosine of the truncated
vectors).  Stated with explicit `take`s of the common length. -/
noncomputable def mismatchValue (a b : List ℚ) : ℝ :=
  ((dotZip (a.take (min a.length b.length)) (b.take (min a.length b.length)) : ℚ) : ℝ)
    / (magnitude a * magnitude b)

/-! Text chunking (`chunk_text`, embeddings.py lines 95-130)

Text is a `List Char`.  `chunk_text` with the source's loop:

```
if len(text) <= max_chars: return [text]
chunks, start = [], 0
while start < len(text):
    end = start + max_chars
    if end < len(text):
        newline_pos = text.rfind('\n\n', start, end)
        if newline_pos != -1 and newline_pos > start + max_chars // 2:
            end = newline_pos
        else:
            period_pos = text.rfind('. ', start, end)
            if period_pos != -1 and period_pos > start + max_chars // 2:
                end = period_pos + 1
    chunks.append(text[start:end].strip())
    start = end - overlap
return chunks
```

The loop is modelled with fuel `len(text)`: when the parameters make
progress (each iteration advances `start` by at least one; see
`nextEnd_progress`) the fuel is never exhausted, so the model agrees with
the source on every terminating run.  (With `overlap > max_chars // 2` the
Python loop can run forever, and `start = end - overlap` can even go
negative; those pathological parameter choices are outside every claim.) -/

/-- The whitespace stripped by Python's `str.strip()` (ASCII part; the
repo's chunks are ASCII text). -/
def pyWS (c : Char) : Bool :=
  c = ' ' || c = '\t' || c = '\n' || c = '\r' || c = '\x0b' || c = '\x0c'

/-- Python `str.strip()`: drop whitespace from both ends. -/
def pyStrip (l : List Char) : List Char :=
  List.rdropWhile pyWS (List.dropWhile pyWS l)

/-- Does `sub` occur in `t` starting at index `i`? -/
def matchesAt (t sub : List Char) (i : ℕ) : Bool :=
  (t.drop i).take sub.length == sub

/-- Python `text.rfind(sub, s, e)` for nonempty `sub`: the largest index
`i` with `s ≤ i`, `i + len(sub) ≤ e` and an occurrence of `sub` at `i`
(`none` for Python's `-1`).  Python clamps `e` past the end of the string;
`matchesAt` fails there, which has the same effect. -/
def rfindSub (t sub : List Char) (s e : ℕ) : Option ℕ :=
  ((List.range e).filter
    (fun i => decide (s ≤ i) && decide (i + sub.length ≤ e) && matchesAt t sub i)).getLast?

/-- Python `text[s:e]` for `0 ≤ s ≤ e` (clamped at the end of the text). -/
def pySlice (t : List Char) (s e : ℕ) : List Char :=
  (t.drop s).take (e - s)

/-- The sentence-boundary fallback of the window-end search: `rfind('. ')`
past the midpoint moves the end to just after the period, else the end
stays at `e = start + max_chars`. -/
def nextEndPeriod (t : List Char) (maxChars start e : ℕ) : ℕ :=
  match rfindSub t ['.', ' '] start e with
  | some q => if start + maxChars / 2 < q then q + 1 else e
  | none => e

/-- Where the window starting at `start` ends: prefer the last paragraph
break (`"\n\n"`) past the midpoint, else the last sentence boundary
(`". "`) past the midpoint, else cut hard at `start + maxChars`.  The
break search only happens when the hard end is still inside the text. -/
def nextEnd (t : List Char) (maxChars start : ℕ) : ℕ :=
  if start + maxChars < t.length then
    match rfindSub t ['\n', '\n'] start (start + maxChars) with
    | some p =>
        if start + maxChars / 2 < p then p
        else nextEndPeriod t maxChars start (start + maxChars)
    | none => nextEndPeriod t maxChars start (start + maxChars)
  else start + maxChars

/-- The chunking loop (fuelled). -/
def chunkTextAux (t : List Char) (maxChars overlap : ℕ) : ℕ → ℕ → List (List Char)
  | 0, _ => []
  | fuel + 1, start =>
    if start < t.length then
      pyStrip (pySlice t start (nextEnd t maxChars start)) ::
        chunkTextAux t maxChars overlap fuel (nextEnd t maxChars start - overlap)
    else []

/-- The same loop recording the `(start, end)` window of each chunk
instead of its stripped text. -/
def chunkSpansAux (t : List Char) (maxChars overlap : ℕ) : ℕ → ℕ → List (ℕ × ℕ)
  | 0, _ => []
  | fuel + 1, start =>
    if start < t.length then
      (start, nextEnd t maxChars start) ::
        chunkSpansAux t maxChars overlap fuel (nextEnd t maxChars start - overlap)
    else []

/-- Model of `chunk_text` (embeddings.py lines 95-130). -/
def chunk_text (t : List Char) (maxChars overlap : ℕ) : List (List Char) :=
  if t.length ≤ maxChars then [t]
  else chunkTextAux t maxChars overlap t.length 0

/-- The `(start, end)` windows of the chunks `chunk_text` returns. -/
def chunkSpans (t : List Char) (maxChars overlap : ℕ) : List (ℕ × ℕ) :=
  if t.length ≤ maxChars then [(0, t.length)]
  else chunkSpansAux t maxChars overlap t.length 0

/-! The chunk store (`MemoryDatabase`, database.py)

The two tables the claims touch, as lists in rowid (insertion) order.
`AUTOINCREMENT` is the `nextId` counter (sqlite starts at 1).  A stored
vector appears in its decoded form `List ℚ` — every stored blob is
produced by `encode_vector`, whose byte-level behaviour is modelled above.
The analytics-only `search_log` table (never read back by any claimed
operation) is not modelled. -/

/-- One row of `memory_chunks`.  `content` and `timestamp` are the
NOT NULL columns; the nullable columns are `Option`s. -/
structure Chunk where
  id : ℕ
  source_file : String
  line_start : Option ℤ
  line_end : Option ℤ
  content : String
  timestamp : ℤ
  event_type : Option String
  metadata : Option String
  deriving Repr, DecidableEq

/-- One row of `embeddings` (`chunk_id` is the primary key). -/
structure EmbRow where
  chunk_id : ℕ
  vec : List ℚ
  model : String
  created_at : ℤ
  deriving Repr, DecidableEq

/-- The persistent state. -/
structure DB where
  chunks : List Chunk
  embeddings : List EmbRow
  nextId : ℕ
  deriving Repr, DecidableEq

/-- The empty store right after `_init_db` (AUTOINCREMENT starts at 1). -/
def emptyDB : DB := ⟨[], [], 1⟩

/-- The errors sqlite3 (and the spec's vocabulary) can surface on these
paths.  `validationError` and `notFoundError` are the spec's names; they
exist in the model's error type precisely so that theorems can state that
the code never produces them. -/
inductive DbError where
  | integrityError     -- sqlite3.IntegrityError (NOT NULL violation)
  | validationError    -- the spec's ValidationError: no code path raises it
  | notFoundError      -- the spec's NotFoundError: no code path raises it
  deriving Repr, DecidableEq

/-- Model of `MemoryDatabase.add_chunk` (database.py lines 68-91): a plain INSERT of
the supplied values followed by COMMIT, returning `lastrowid`.  There is no
content validation anywhere on this path; the only failure mode relevant to
the claims is passing `timestamp=None`, which violates the NOT NULL
constraint (sqlite3.IntegrityError) and persists nothing.  `metadata`
arrives already JSON-serialized (`json.dumps` is external string
formatting). -/
def add_chunk (db : DB) (source_file content : String) (timestamp : Option ℤ)
    (line_start line_end : Option ℤ) (event_type metadata : Option String) :
    Except DbError (ℕ × DB) :=
  match timestamp with
  | none => .error .integrityError
  | some ts =>
      .ok (db.nextId,
        { db with
          chunks := db.chunks ++
            [⟨db.nextId, source_file, line_start, line_end, content, ts,
              event_type, metadata⟩],
          nextId := db.nextId + 1 })

/-- Model of `MemoryDatabase.add_embedding` (database.py lines 93-100):
`INSERT OR REPLACE INTO embeddings ...` — replace any row with the same
primary key `chunk_id`, insert otherwise.  The table declares
`FOREIGN KEY (chunk_id) REFERENCES memory_chunks(id)`, but the connection
never executes `PRAGMA foreign_keys = ON`, and sqlite3 leaves foreign-key
enforcement OFF by default: the insert succeeds for any `chunk_id`,
existing chunk or not.  `created_at` (`datetime.now()`) is the injected
`now` argument. -/
def add_embedding (db : DB) (chunk_id : ℕ) (vector : List ℚ) (model : String)
    (now : ℤ) : DB :=
  { db with
    embeddings :=
      db.embeddings.filter (fun e => decide (e.chunk_id ≠ chunk_id)) ++
        [⟨chunk_id, vector, model, now⟩] }

/-! Stable descending sort

Python's `list.sort(key=k, reverse=True)` and sqlite's `ORDER BY ts DESC`
order by descending key and are stable / scan-ordered on ties.  The stable
descending order is unique, so the naive stable insertion sort below has
the same observable behaviour as Python's Timsort with `reverse=True`. -/

/-- Insert `x` (which originally precedes everything in the list) before
the first element whose key does not exceed `x`'s: equal keys keep the
earlier element first. -/
def insertDescBy {α K : Type} [LinearOrder K] (key : α → K) (x : α) :
    List α → List α
  | [] => [x]
  | y :: ys => if key y ≤ key x then x :: y :: ys else y :: insertDescBy key x ys

/-- Stable sort by descending key. -/
def sortDescBy {α K : Type} [LinearOrder K] (key : α → K) : List α → List α
  | [] => []
  | x :: xs => insertDescBy key x (sortDescBy key xs)

/-! Fulltext fallback search (`MemoryDatabase.search_fulltext`,
database.py lines 132-140)

`SELECT * FROM memory_chunks WHERE content LIKE '%'+q+'%' ORDER BY
timestamp DESC LIMIT n`.  sqlite's default `LIKE` is case-insensitive for
the ASCII letters, and `%` / `_` inside the query string act as wildcards
(there is no escaping).  (`MemorySearch.search_fulltext`, search.py lines
122-134, only reformats these rows into preview dicts; the set, order and
count of returned chunks are decided here.) -/

/-- sqlite's ASCII case folding (its default `LIKE` ignores case only for
`A`–`Z`). -/
def asciiLower (c : Char) : Char :=
  if 'A' ≤ c ∧ c ≤ 'Z' then Char.ofNat (c.toNat + 32) else c

/-- sqlite `LIKE` matching, fuelled so the recursion is structural: `%`
matches any sequence, `_` any single character, other characters match up
to ASCII case.  Every recursive call shortens `pattern + text` by at least
one character, so fuel `|pattern| + |text| + 1` is never exhausted. -/
def likeMatchAux : ℕ → List Char → List Char → Bool
  | 0, _, _ => false
  | fuel + 1, ps0, cs0 =>
    match ps0, cs0 with
    | [], [] => true
    | [], _ :: _ => false
    | '%' :: ps, cs =>
        likeMatchAux fuel ps cs ||
          (match cs with
           | [] => false
           | _ :: cs2 => likeMatchAux fuel ('%' :: ps) cs2)
    | '_' :: ps, cs =>
        (match cs with
         | [] => false
         | _ :: cs2 => likeMatchAux fuel ps cs2)
    | _ :: _, [] => false
    | p :: ps, c :: cs2 => asciiLower p == asciiLower c && likeMatchAux fuel ps cs2

/-- sqlite `LIKE` pattern matching. -/
def likeMatch (ps cs : List Char) : Bool :=
  likeMatchAux (ps.length + cs.length + 1) ps cs

/-- The `LIKE` pattern `f'%{query}%'`. -/
def likePattern (query : String) : List Char :=
  '%' :: (query.data ++ ['%'])

/-- Model of `MemoryDatabase.search_fulltext` (database.py lines 132-140). -/
def search_fulltext (db : DB) (query : String) (limit : ℕ) : List Chunk :=
  (sortDescBy (fun c => c.timestamp)
    (db.chunks.filter (fun c => likeMatch (likePattern query) c.content.data))).take limit

/-- Plain substring occurrence (what claim C8 asserts the filter to be):
`sub` occurs contiguously in `l`. -/
def containsSub (sub l : List Char) : Bool :=
  (List.range (l.length + 1)).any (fun i => matchesAt l sub i)

/-! Index search (`MemorySearch.search_index`, search.py lines 19-78)

The SQL join loads, in chunk-table scan order, every chunk that has an
embedding, filtered by optional event-type equality and an optional
inclusive timestamp range.  Each candidate is scored
`round(cosine_similarity(query_emb, decode_vector(blob)), 4)`; the result
dicts are sorted with `results.sort(key=lambda x: x['relevance'],
reverse=True)` — by the rounded score ONLY, Python's sort being stable on
ties — and truncated to `limit`.

The query embedding (`self.embedding_gen.generate(query)`) is the injected
`queryEmb` argument (the embedding backend is external).  Presentation
fields of the result dicts (the 50-character `title`, the formatted
`date` string) carry no information the claims mention and are elided; the
raw `timestamp` is kept so the ordering claims can be stated.  The
`log_search` side effect only appends to the unmodelled analytics log. -/

/-- One result row of `search_index` (minus presentation-only fields). -/
structure SResult where
  rid : ℕ
  rsource : String
  rtype : Option String
  rts : ℤ
  relevance : ℝ

/-- Python `round(x, 4)` on the exact value: nearest multiple of
`1 / 10 ^ 4`, ties to even. -/
noncomputable def round4 (x : ℝ) : ℝ := (rneF (x * 10000) : ℤ) / 10000

/-- The rows produced by the join + WHERE filters, in chunk-table scan
order. -/
def candidateRows (db : DB) (date_range : Option (ℤ × ℤ))
    (event_type : Option String) : List (Chunk × List ℚ) :=
  (db.chunks.filterMap (fun c =>
      (db.embeddings.find? (fun e => e.chunk_id == c.id)).map (fun e => (c, e.vec))))
    |>.filter (fun ce =>
      (match event_type with
       | none => true
       | some s => decide (ce.1.event_type = some s)) &&
      (match date_range with
       | none => true
       | some (lo, hi) => decide (lo ≤ ce.1.timestamp) && decide (ce.1.timestamp ≤ hi)))

/-- Model of `MemorySearch.search_index` (search.py lines 19-78). -/
noncomputable def search_index (queryEmb : List ℚ) (db : DB) (limit : ℕ)
    (date_range : Option (ℤ × ℤ)) (event_type : Option String) : List SResult :=
  let results := (candidateRows db date_range event_type).map (fun ce =>
    { rid := ce.1.id, rsource := ce.1.source_file, rtype := ce.1.event_type,
      rts := ce.1.timestamp,
      relevance := round4 (cosine_similarity queryEmb ce.2) : SResult })
  (sortDescBy (fun r => r.relevance) results).take limit

/-! Helper lemmas: byte grouping -/

lemma pack4_length (x : ℚ) : (pack4 x).length = 4 := by
  simp [pack4, bytesLE4]

lemma groups4_length : ∀ bs : List ℕ, (groups4 bs).length = bs.length / 4
  | [] => by simp [groups4]
  | [_] => by simp [groups4]
  | [_, _] => by simp [groups4]
  | [_, _, _] => by simp [groups4]
  | b0 :: b1 :: b2 :: b3 :: rest => by
      have ih := groups4_length rest
      simp only [groups4, List.length_cons, ih]
      omega

lemma groups4_append4 (g rest : List ℕ) (hg : g.length = 4) :
    groups4 (g ++ rest) = g :: groups4 rest := by
  match g, hg with
  | [a, b, c, d], _ => simp [groups4]

lemma encode_vector_nil : encode_vector [] = [] := by
  simp [encode_vector]

lemma encode_vector_cons (x : ℚ) (xs : List ℚ) :
    encode_vector (x :: xs) = pack4 x ++ encode_vector xs := by
  simp [encode_vector]

lemma encode_vector_length (v : List ℚ) :
    (encode_vector v).length = 4 * v.length := by
  induction v with
  | nil => simp [encode_vector_nil]
  | cons x xs ih =>
      rw [encode_vector_cons]
      simp [pack4_length, ih]
      ring

lemma decode_vals_nil : decode_vals [] = some [] := by
  simp [decode_vals, decode_vector, groups4, valsF32]

lemma decode_vals_cons {x : ℚ} {xs : List ℚ} (rest : List ℕ)
    (hx : f32RoundTrip x) (h4 : rest.length % 4 = 0)
    (hrest : decode_vals rest = some xs) :
    decode_vals (pack4 x ++ rest) = some (x :: xs) := by
  have hx2 : valF32 (leVal4 (pack4 x)) = some x := hx
  unfold decode_vals decode_vector at hrest ⊢
  rw [if_pos h4] at hrest
  have hlen : (pack4 x ++ rest).length % 4 = 0 := by
    simp [pack4_length]
    omega
  rw [Option.some_bind] at hrest
  rw [if_pos hlen, groups4_append4 _ _ (pack4_length x), Option.some_bind]
  simp [valsF32, hx2, hrest]

/-! Claim C10 -/

/-- C10: `decode_vector` fails (raises `struct.error`, i.e. returns no
value) on every byte string whose length is not a multiple of 4, and on a
byte string whose length is a multiple of 4 it returns exactly
`length / 4` floats. -/
theorem C10_decode_length (bs : List ℕ) :
    (bs.length % 4 ≠ 0 → decode_vector bs = none) ∧
    (bs.length % 4 = 0 →
      ∃ ps, decode_vector bs = some ps ∧ ps.length = bs.length / 4) := by
  constructor
  · intro h
    simp [decode_vector, h]
  · intro h
    exact ⟨(groups4 bs).map leVal4, by simp [decode_vector, h],
      by simp [groups4_length]⟩

/-- Witness for C10 at the concrete inputs `[1,2,3,4,5]` (length 5, not a
multiple of 4: decoding fails) and `[1,2,3,4]` (length 4: exactly one
float comes back). -/
theorem C10_decode_length_witness :
    (([1, 2, 3, 4, 5] : List ℕ).length % 4 ≠ 0 ∧ decode_vector [1, 2, 3, 4, 5] = none) ∧
    (([1, 2, 3, 4] : List ℕ).length % 4 = 0 ∧
      ∃ ps, decode_vector [1, 2, 3, 4] = some ps ∧
        ps.length = ([1, 2, 3, 4] : List ℕ).length / 4) :=
  ⟨⟨by decide, (C10_decode_length [1, 2, 3, 4, 5]).1 (by decide)⟩,
   ⟨by decide, (C10_decode_length [1, 2, 3, 4]).2 (by decide)⟩⟩

/-! Claim C1 -/

/-- C1 counterexample: for the one-element vector `[0.1]` (the exact
binary64 value of the Python literal `0.1`), `decode_vector
(encode_vector v)` is NOT `v`: packing rounds `0.1` to the binary32 value
`13421773 / 2 ^ 27`, so the round trip does not reproduce the original
bit pattern. -/
theorem C1_roundtrip_cex : decode_vals (encode_vector [q01]) ≠ some [q01] := by
  decide

/-- C1 (amended): the encoded byte string always has length exactly
`4 * len(v)`, and the round trip `decode_vector (encode_vector v) == v`
holds exactly when it holds componentwise, i.e. for the vectors all of
whose components are representable as IEEE-754 binary32 values (in
particular every vector that was itself produced by `decode_vector`). -/
theorem C1_roundtrip_f32 (v : List ℚ) (h : ∀ x ∈ v, f32RoundTrip x) :
    (encode_vector v).length = 4 * v.length ∧
    decode_vals (encode_vector v) = some v := by
  refine ⟨encode_vector_length v, ?_⟩
  induction v with
  | nil => exact decode_vals_nil
  | cons x xs ih =>
      rw [encode_vector_cons]
      exact decode_vals_cons _ (h x (by simp))
        (by rw [encode_vector_length]; omega)
        (ih (fun y hy => h y (by simp [hy])))

/-- Witness for C1 at the concrete vector `[3/2, -1/4, 0]`, all of whose
components are binary32-representable: encoding yields 12 bytes and the
round trip is exact. -/
theorem C1_roundtrip_f32_witness :
    (∀ x ∈ ([3 / 2, -(1 / 4), 0] : List ℚ), f32RoundTrip x) ∧
    ((encode_vector [3 / 2, -(1 / 4), 0]).length = 4 * ([3 / 2, -(1 / 4), 0] : List ℚ).length ∧
      decode_vals (encode_vector [3 / 2, -(1 / 4), 0]) = some [3 / 2, -(1 / 4), 0]) :=
  ⟨by decide, C1_roundtrip_f32 _ (by decide)⟩

/-! Helper lemmas: Cauchy–Schwarz for list dot products -/

lemma sumSq_nonneg (l : List ℚ) : 0 ≤ sumSq l := by
  unfold sumSq
  induction l with
  | nil => simp
  | cons x xs ih =>
      simp only [List.map_cons, List.sum_cons]
      nlinarith [mul_self_nonneg x]

/-- The inductive step of Cauchy–Schwarz, as pure algebra. -/
lemma cs_step (x y S A B : ℚ) (hA : 0 ≤ A) (hB : 0 ≤ B) (IH : S ^ 2 ≤ A * B) :
    (x * y + S) ^ 2 ≤ (x * x + A) * (y * y + B) := by
  rcases eq_or_lt_of_le hB with hB0 | hBpos
  · have hS0 : S = 0 := by nlinarith [sq_nonneg S]
    subst hS0
    have hB0' : B = 0 := hB0.symm
    subst hB0'
    nlinarith [mul_nonneg hA (mul_self_nonneg y)]
  · have key : 0 ≤ (x * B - y * S) ^ 2 + (A * B - S ^ 2) * (y * y + B) :=
      add_nonneg (sq_nonneg _)
        (mul_nonneg (by linarith) (add_nonneg (mul_self_nonneg y) hB))
    have expand : (x * B - y * S) ^ 2 + (A * B - S ^ 2) * (y * y + B)
        = B * ((x * x + A) * (y * y + B) - (x * y + S) ^ 2) := by ring
    rw [expand] at key
    nlinarith [key, hBpos]

/-- Cauchy–Schwarz: the square of the (truncating) dot product is bounded
by the product of the full squared magnitudes. -/
lemma dotZip_sq_le : ∀ a b : List ℚ, dotZip a b ^ 2 ≤ sumSq a * sumSq b := by
  intro a
  induction a with
  | nil =>
      intro b
      simp [dotZip, sumSq]
  | cons x xs ih =>
      intro b
      cases b with
      | nil =>
          have := sumSq_nonneg (x :: xs)
          simp [dotZip, sumSq]
      | cons y ys =>
          have IH := ih ys
          have hA := sumSq_nonneg xs
          have hB := sumSq_nonneg ys
          unfold dotZip sumSq at IH hA hB ⊢
          simp only [List.zipWith_cons_cons, List.map_cons, List.sum_cons]
          exact cs_step x y _ _ _ hA hB IH

lemma zipWith_mul_take_min : ∀ a b : List ℚ,
    dotZip (a.take (min a.length b.length)) (b.take (min a.length b.length)) = dotZip a b := by
  intro a
  induction a with
  | nil => intro b; simp [dotZip]
  | cons x xs ih =>
      intro b
      cases b with
      | nil => simp [dotZip]
      | cons y ys =>
          have := ih ys
          unfold dotZip at this ⊢
          simp only [List.length_cons, Nat.succ_min_succ, List.take_succ_cons,
            List.zipWith_cons_cons, List.sum_cons]
          rw [this]

/-! Claim C7 -/

/-- C7: for equal-length vectors, `cosine_similarity` lands in `[-1, 1]`,
and it is exactly `0` whenever either vector has zero magnitude (the
deliberate degenerate-case branch of the source).  Float arithmetic is
idealized as exact arithmetic. -/
theorem C7_cosine_bounds (a b : List ℚ) (hlen : a.length = b.length) :
    (-1 ≤ cosine_similarity a b ∧ cosine_similarity a b ≤ 1) ∧
    (sumSq a = 0 ∨ sumSq b = 0 → cosine_similarity a b = 0) := by
  constructor
  · unfold cosine_similarity
    by_cases hz : magnitude a = 0 ∨ magnitude b = 0
    · rw [if_pos hz]; norm_num
    · rw [if_neg hz]
      push_neg at hz
      obtain ⟨ha, hb⟩ := hz
      have hA : (0 : ℝ) < ((sumSq a : ℚ) : ℝ) := by
        rcases lt_or_eq_of_le (by exact_mod_cast sumSq_nonneg a :
          (0 : ℝ) ≤ ((sumSq a : ℚ) : ℝ)) with h | h
        · exact h
        · exact absurd (by unfold magnitude; rw [← h, Real.sqrt_zero]) ha
      have hB : (0 : ℝ) < ((sumSq b : ℚ) : ℝ) := by
        rcases lt_or_eq_of_le (by exact_mod_cast sumSq_nonneg b :
          (0 : ℝ) ≤ ((sumSq b : ℚ) : ℝ)) with h | h
        · exact h
        · exact absurd (by unfold magnitude; rw [← h, Real.sqrt_zero]) hb
      have hcs : ((dotZip a b : ℚ) : ℝ) ^ 2 ≤ ((sumSq a : ℚ) : ℝ) * ((sumSq b : ℚ) : ℝ) := by
        exact_mod_cast dotZip_sq_le a b
      have habs : |((dotZip a b : ℚ) : ℝ)| ≤ magnitude a * magnitude b := by
        unfold magnitude
        rw [← Real.sqrt_sq_eq_abs, ← Real.sqrt_mul hA.le]
        exact Real.sqrt_le_sqrt hcs
      have hpos : 0 < magnitude a * magnitude b := by
        unfold magnitude
        exact mul_pos (Real.sqrt_pos.mpr hA) (Real.sqrt_pos.mpr hB)
      have h1 : |((dotZip a b : ℚ) : ℝ) / (magnitude a * magnitude b)| ≤ 1 := by
        rw [abs_div, abs_of_pos hpos]
        exact (div_le_one hpos).mpr habs
      exact abs_le.mp h1
  · intro h
    unfold cosine_similarity
    have : magnitude a = 0 ∨ magnitude b = 0 := by
      rcases h with h | h
      · exact Or.inl (by unfold magnitude; rw [h]; simp)
      · exact Or.inr (by unfold magnitude; rw [h]; simp)
    rw [if_pos this]

/-- Witness for C7 at the pair `[3, 4]`, `[4, 3]`. -/
theorem C7_cosine_bounds_witness :
    ([3, 4] : List ℚ).length = ([4, 3] : List ℚ).length ∧
    ((-1 ≤ cosine_similarity [3, 4] [4, 3] ∧ cosine_similarity [3, 4] [4, 3] ≤ 1) ∧
      (sumSq [3, 4] = 0 ∨ sumSq ([4, 3] : List ℚ) = 0 → cosine_similarity [3, 4] [4, 3] = 0)) :=
  ⟨rfl, C7_cosine_bounds [3, 4] [4, 3] rfl⟩

/-! Claim C9 -/

/-- C9: with vectors of unequal lengths, `cosine_similarity` silently
truncates — `zip` pairs only the common prefix — while both magnitudes
still range over the full lists: the value returned (no exception is
raised; the function is total) equals the common-prefix dot product
divided by the product of the FULL magnitudes, which is not the cosine of
the truncated vectors.  (When either magnitude is zero the source
returns `0.0`; `mismatchValue` agrees there because division by zero is
zero in Lean's reals.) -/
theorem C9_mismatched_lengths (a b : List ℚ) (hlen : a.length ≠ b.length) :
    cosine_similarity a b = mismatchValue a b := by
  unfold cosine_similarity mismatchValue
  rw [zipWith_mul_take_min]
  by_cases hz : magnitude a = 0 ∨ magnitude b = 0
  · rw [if_pos hz]
    rcases hz with h | h <;> rw [h] <;> simp
  · rw [if_neg hz]

/-- Witness for C9 at `[3, 4]` (length 2) against `[0, 2, 0]` (length 3). -/
theorem C9_mismatched_lengths_witness :
    ([3, 4] : List ℚ).length ≠ ([0, 2, 0] : List ℚ).length ∧
    cosine_similarity [3, 4] [0, 2, 0] = mismatchValue [3, 4] [0, 2, 0] :=
  ⟨by decide, C9_mismatched_lengths [3, 4] [0, 2, 0] (by decide)⟩

/-! Claim C3 -/

/-- C3 counterexample: `add_chunk` with EMPTY content does not fail — there
is no validation anywhere on the path (the schema's NOT NULL does not
exclude the empty string): on a fresh store the insert succeeds and
returns rowid 1 with the empty-content chunk persisted. -/
theorem C3_add_chunk_cex :
    add_chunk emptyDB "daily.md" "" (some 5) none none none none =
      Except.ok (1, ⟨[⟨1, "daily.md", none, none, "", 5, none, none⟩], [], 2⟩) := by
  rfl

/-- C3 (amended): `add_chunk` applies no content validation of its own —
with a present timestamp it persists the chunk (any content, empty
included) and returns the newly assigned id; with a missing (`None`)
timestamp the NOT NULL constraint raises `sqlite3.IntegrityError` (not a
`ValidationError`, which exists nowhere in the code) and nothing is
persisted. -/
theorem C3_add_chunk_behavior (db : DB) (src content : String) (ts : Option ℤ)
    (ls le0 : Option ℤ) (et md : Option String) :
    (ts = none →
      add_chunk db src content ts ls le0 et md = Except.error DbError.integrityError) ∧
    (∀ t, ts = some t →
      add_chunk db src content ts ls le0 et md =
        Except.ok (db.nextId,
          { db with
            chunks := db.chunks ++ [⟨db.nextId, src, ls, le0, content, t, et, md⟩],
            nextId := db.nextId + 1 })) := by
  constructor
  · intro h; subst h; rfl
  · intro t h; subst h; rfl

/-- Witness for C3 at concrete inputs: a `None` timestamp raises the
integrity error and changes nothing; an empty-content chunk with timestamp
5 is accepted. -/
theorem C3_add_chunk_behavior_witness :
    add_chunk emptyDB "daily.md" "x" none none none none none =
      Except.error DbError.integrityError ∧
    add_chunk emptyDB "daily.md" "" (some 5) none none none none =
      Except.ok (1,
        { emptyDB with
          chunks := [⟨1, "daily.md", none, none, "", 5, none, none⟩],
          nextId := 2 }) :=
  ⟨(C3_add_chunk_behavior emptyDB "daily.md" "x" none none none none none).1 rfl,
   (C3_add_chunk_behavior emptyDB "daily.md" "" (some 5) none none none none).2 5 rfl⟩

/-! Claim C4 -/

/-- C4: evaluating the code at the failing input.  `add_embedding` for a
chunk id (42) that references NO existing chunk — the store is empty —
returns normally and INSERTS the orphan row: the declared FOREIGN KEY is
never enforced because the connection never runs
`PRAGMA foreign_keys = ON`.  The claim (and spec §4.1/§7) requires a
recoverable `NotFoundError` with the embeddings table left unchanged. -/
theorem C4_add_embedding_orphan :
    (add_embedding emptyDB 42 [1] "all-MiniLM-L6-v2" 1000).embeddings =
      [⟨42, [1], "all-MiniLM-L6-v2", 1000⟩] ∧
    (add_embedding emptyDB 42 [1] "all-MiniLM-L6-v2" 1000).chunks = [] :=
  ⟨rfl, rfl⟩

/-! Helper lemmas: the stable descending insertion sort -/

section SortLemmas

variable {α K : Type} [LinearOrder K] (key : α → K)

lemma insertDescBy_perm (x : α) :
    ∀ l : List α, List.Perm (insertDescBy key x l) (x :: l) := by
  intro l
  induction l with
  | nil => simp [insertDescBy]
  | cons y ys ih =>
      unfold insertDescBy
      by_cases h : key y ≤ key x
      · rw [if_pos h]
      · rw [if_neg h]
        exact (ih.cons y).trans (List.Perm.swap x y ys)

lemma sortDescBy_perm : ∀ l : List α, List.Perm (sortDescBy key l) l := by
  intro l
  induction l with
  | nil => simp [sortDescBy]
  | cons x xs ih =>
      unfold sortDescBy
      exact (insertDescBy_perm key x _).trans (ih.cons x)

lemma insertDescBy_pairwise (x : α) :
    ∀ {l : List α}, l.Pairwise (fun p q => key q ≤ key p) →
      (insertDescBy key x l).Pairwise (fun p q => key q ≤ key p) := by
  intro l
  induction l with
  | nil => intro _; simp [insertDescBy]
  | cons y ys ih =>
      intro hp
      rw [List.pairwise_cons] at hp
      obtain ⟨hy, hys⟩ := hp
      unfold insertDescBy
      by_cases h : key y ≤ key x
      · rw [if_pos h]
        refine List.pairwise_cons.mpr ⟨?_, List.pairwise_cons.mpr ⟨hy, hys⟩⟩
        intro z hz
        rcases List.mem_cons.mp hz with rfl | hz2
        · exact h
        · exact (hy z hz2).trans h
      · rw [if_neg h]
        refine List.pairwise_cons.mpr ⟨?_, ih hys⟩
        intro z hz
        have hz2 : z = x ∨ z ∈ ys :=
          List.mem_cons.mp ((insertDescBy_perm key x ys).mem_iff.mp hz)
        rcases hz2 with rfl | hz2
        · exact le_of_not_le h
        · exact hy z hz2

lemma sortDescBy_pairwise :
    ∀ l : List α, (sortDescBy key l).Pairwise (fun p q => key q ≤ key p) := by
  intro l
  induction l with
  | nil => simp [sortDescBy]
  | cons x xs ih =>
      unfold sortDescBy
      exact insertDescBy_pairwise key x ih

end SortLemmas

/-! Claim C8 -/

/-- C8 (amended): `search_fulltext` returns at most `limit` chunks,
ordered by non-increasing timestamp, and every returned chunk's content
matches the sqlite `LIKE` pattern `'%' + query + '%'` — an ASCII
case-INSENSITIVE match in which `%` and `_` of the query act as wildcards,
not the case-sensitive plain-substring containment the claim states. -/
theorem C8_fulltext_like (db : DB) (query : String) (limit : ℕ) :
    (∀ c ∈ search_fulltext db query limit,
      likeMatch (likePattern query) c.content.data = true) ∧
    (search_fulltext db query limit).Pairwise (fun x y => y.timestamp ≤ x.timestamp) ∧
    (search_fulltext db query limit).length ≤ limit := by
  refine ⟨?_, ?_, ?_⟩
  · intro c hc
    have h1 : c ∈ sortDescBy (fun c => c.timestamp)
        (db.chunks.filter (fun c => likeMatch (likePattern query) c.content.data)) :=
      List.mem_of_mem_take hc
    have h2 : c ∈ db.chunks.filter (fun c => likeMatch (likePattern query) c.content.data) :=
      (sortDescBy_perm _ _).mem_iff.mp h1
    exact (List.mem_filter.mp h2).2
  · exact List.Pairwise.sublist (List.take_sublist _ _)
      (sortDescBy_pairwise (fun c : Chunk => c.timestamp) _)
  · exact List.length_take_le _ _

/-- Witness for C8: on a one-chunk store whose content is `"hello"`, the
query `"ell"` at limit 5 returns that chunk and the theorem's clauses
hold there. -/
theorem C8_fulltext_like_witness :
    (∀ c ∈ search_fulltext ⟨[⟨1, "n.md", none, none, "hello", 7, none, none⟩], [], 2⟩
        "ell" 5, likeMatch (likePattern "ell") c.content.data = true) ∧
    (search_fulltext ⟨[⟨1, "n.md", none, none, "hello", 7, none, none⟩], [], 2⟩
        "ell" 5).Pairwise (fun x y => y.timestamp ≤ x.timestamp) ∧
    (search_fulltext ⟨[⟨1, "n.md", none, none, "hello", 7, none, none⟩], [], 2⟩
        "ell" 5).length ≤ 5 :=
  C8_fulltext_like ⟨[⟨1, "n.md", none, none, "hello", 7, none, none⟩], [], 2⟩ "ell" 5

/-- C8 counterexample: the store holds one chunk with content `"ABC"`;
`search_fulltext` for the query `"abc"` RETURNS it (sqlite `LIKE` is
ASCII case-insensitive), yet `"abc"` is not a substring of `"ABC"` — so
it is not true that only chunks containing the query as a substring come
back. -/
theorem C8_fulltext_cex :
    ¬ ∀ c ∈ search_fulltext ⟨[⟨1, "n.md", none, none, "ABC", 7, none, none⟩], [], 2⟩
        "abc" 10, containsSub ("abc".data) c.content.data = true := by
  decide

/-! Claim C2 -/

/-- The ordering claim C2 asserts for `search_index` results: descending
similarity with equal-similarity ties broken by descending (more recent
first) chunk timestamp. -/
def ClaimOrderedC2 (l : List SResult) : Prop :=
  l.Pairwise (fun x y => y.relevance < x.relevance ∨
    (y.relevance = x.relevance ∧ y.rts ≤ x.rts))

/-- C2 (amended): `search_index` returns at most `limit` results, ordered
by non-increasing relevance score (the cosine similarity rounded to 4
decimal places); equal scores keep the candidate scan order — the sort
key is the relevance alone, so there is NO timestamp tie-break. -/
theorem C2_search_index_sorted (queryEmb : List ℚ) (db : DB) (limit : ℕ)
    (date_range : Option (ℤ × ℤ)) (event_type : Option String) :
    (search_index queryEmb db limit date_range event_type).length ≤ limit ∧
    (search_index queryEmb db limit date_range event_type).Pairwise
      (fun x y => y.relevance ≤ x.relevance) := by
  unfold search_index
  refine ⟨List.length_take_le _ _, ?_⟩
  exact List.Pairwise.sublist (List.take_sublist _ _)
    (sortDescBy_pairwise (fun r : SResult => r.relevance) _)

lemma rneF_intCast {α : Type} [LinearOrderedField α] [FloorRing α] (n : ℤ) :
    rneF ((n : α)) = n := by
  unfold rneF
  simp

/-- The two-chunk store for the C2 counterexample: both chunks carry the
same embedding vector `[1]`, so their similarities to any query tie; the
OLDER chunk (timestamp 100) has the smaller rowid and is scanned first. -/
def dbTie : DB :=
  ⟨[⟨1, "a.md", none, none, "m1", 100, none, none⟩,
    ⟨2, "b.md", none, none, "m2", 200, none, none⟩],
   [⟨1, [1], "m", 0⟩, ⟨2, [1], "m", 0⟩], 3⟩

/-- C2 counterexample: on `dbTie` with query embedding `[1]` both
candidates score relevance `1`, and `search_index` returns the OLDER
chunk first (Python's sort is stable and keys on relevance only): the
output is not ordered with equal-similarity ties broken by descending
timestamp. -/
theorem C2_search_index_cex :
    ¬ ClaimOrderedC2 (search_index [1] dbTie 10 none none) := by
  have hcand : candidateRows dbTie none none =
      [(⟨1, "a.md", none, none, "m1", 100, none, none⟩, [1]),
       (⟨2, "b.md", none, none, "m2", 200, none, none⟩, [1])] := by decide
  have hsum : sumSq [(1 : ℚ)] = 1 := by norm_num [sumSq]
  have hmag : magnitude [(1 : ℚ)] = 1 := by
    unfold magnitude
    rw [hsum]
    norm_num
  have hdot : dotZip [(1 : ℚ)] [1] = 1 := by norm_num [dotZip]
  have hcos : cosine_similarity [(1 : ℚ)] [1] = 1 := by
    unfold cosine_similarity
    rw [hmag, if_neg (by norm_num), hdot]
    norm_num
  have hround : round4 1 = 1 := by
    unfold round4
    rw [show (1 : ℝ) * 10000 = ((10000 : ℤ) : ℝ) by norm_num, rneF_intCast]
    norm_num
  unfold search_index
  rw [hcand]
  simp only [List.map_cons, List.map_nil]
  rw [hcos, hround]
  have hsorted : sortDescBy (fun r : SResult => r.relevance)
      [⟨1, "a.md", none, 100, 1⟩, ⟨2, "b.md", none, 200, 1⟩] =
      [⟨1, "a.md", none, 100, 1⟩, ⟨2, "b.md", none, 200, 1⟩] := by
    unfold sortDescBy sortDescBy sortDescBy
    unfold insertDescBy insertDescBy
    simp
  rw [hsorted]
  unfold ClaimOrderedC2
  simp only [List.take, List.pairwise_cons]
  intro h
  have hmem := h.1 ⟨2, "b.md", none, 200, 1⟩ (by simp)
  norm_num at hmem

/-! Helper lemmas: stripping and the chunking loop -/

lemma dropWhile_self_of_front {α : Type} {p : α → Bool} {l m : List α}
    (hl : List.dropWhile p l = l) (hpre : m <+: l) : List.dropWhile p m = m := by
  cases m with
  | nil => rfl
  | cons c ms =>
      obtain ⟨tail, htail⟩ := hpre
      simp only [List.cons_append] at htail
      have hpc : p c = false := by
        by_contra hpc
        rw [Bool.not_eq_false] at hpc
        rw [← htail, List.dropWhile_cons, if_pos hpc] at hl
        have hlen := congrArg List.length hl
        have hle := (List.dropWhile_suffix p (l := ms ++ tail)).length_le
        simp at hlen hle
        omega
      rw [List.dropWhile_cons, if_neg (by simp [hpc])]

lemma pyStrip_idem (l : List Char) : pyStrip (pyStrip l) = pyStrip l := by
  unfold pyStrip
  have hM : List.dropWhile pyWS (List.dropWhile pyWS l) = List.dropWhile pyWS l :=
    List.dropWhile_idempotent pyWS l
  have hpre : List.rdropWhile pyWS (List.dropWhile pyWS l) <+: List.dropWhile pyWS l :=
    List.rdropWhile_prefix pyWS _
  rw [dropWhile_self_of_front hM hpre, List.rdropWhile_idempotent]

lemma pyStrip_length_le (l : List Char) : (pyStrip l).length ≤ l.length := by
  unfold pyStrip
  have hp := List.rdropWhile_prefix pyWS (List.dropWhile pyWS l)
  have h1 := hp.length_le
  have h2 := (List.dropWhile_suffix pyWS (l := l)).length_le
  omega

lemma pySlice_length_le (t : List Char) (s e : ℕ) : (pySlice t s e).length ≤ e - s := by
  simp [pySlice, List.length_take]

/-- Whatever the break search decides, the window end lies strictly past
the midpoint: every iteration of the loop advances `start` by more than
`maxChars / 2 - overlap`. -/
lemma nextEnd_lower (t : List Char) (maxChars start : ℕ) (hmax : 0 < maxChars) :
    start + maxChars / 2 + 1 ≤ nextEnd t maxChars start := by
  have h2 : maxChars / 2 < maxChars := Nat.div_lt_self hmax (by norm_num)
  unfold nextEnd nextEndPeriod
  repeat' split
  all_goals omega

lemma chunkSpansAux_succ_pos {t : List Char} {mc ov fuel start : ℕ}
    (h : start < t.length) :
    chunkSpansAux t mc ov (fuel + 1) start =
      (start, nextEnd t mc start) :: chunkSpansAux t mc ov fuel (nextEnd t mc start - ov) := by
  simp [chunkSpansAux, h]

lemma chunkSpansAux_stop {t : List Char} {mc ov fuel start : ℕ}
    (h : ¬ start < t.length) :
    chunkSpansAux t mc ov (fuel + 1) start = [] := by
  simp [chunkSpansAux, h]

lemma chunkTextAux_eq_map (t : List Char) (mc ov : ℕ) :
    ∀ fuel start, chunkTextAux t mc ov fuel start =
      (chunkSpansAux t mc ov fuel start).map (fun se => pyStrip (pySlice t se.1 se.2)) := by
  intro fuel
  induction fuel with
  | zero => intro start; simp [chunkTextAux, chunkSpansAux]
  | succ fuel ih =>
      intro start
      by_cases h : start < t.length
      · simp [chunkTextAux, chunkSpansAux, h, ih]
      · simp [chunkTextAux, chunkSpansAux, h]

/-- Every position of the input is inside some recorded window: the loop
never skips content, provided each iteration makes progress
(`overlap ≤ maxChars / 2`, which the default parameters satisfy). -/
lemma chunkSpansAux_cover (t : List Char) (mc ov : ℕ)
    (hmax : 0 < mc) (hov : ov ≤ mc / 2) :
    ∀ fuel start, t.length ≤ start + fuel →
      ∀ p, start ≤ p → p < t.length →
        ∃ se ∈ chunkSpansAux t mc ov fuel start, se.1 ≤ p ∧ p < se.2 := by
  intro fuel
  induction fuel with
  | zero =>
      intro start hle p hsp hp
      omega
  | succ fuel ih =>
      intro start hle p hsp hp
      have hstart : start < t.length := lt_of_le_of_lt hsp hp
      rw [chunkSpansAux_succ_pos hstart]
      by_cases hpe : p < nextEnd t mc start
      · exact ⟨(start, nextEnd t mc start), by simp, hsp, hpe⟩
      · push_neg at hpe
        have hlow := nextEnd_lower t mc start hmax
        obtain ⟨se, hmem, hc1, hc2⟩ := ih (nextEnd t mc start - ov)
          (by omega) p (by omega) hp
        exact ⟨se, List.mem_cons_of_mem _ hmem, hc1, hc2⟩

/-! Claim C5 -/

/-- C5 counterexample: for the 3-character input `" a "` (which fits in a
single window) `chunk_text` takes the short path `return [text]` and the
single returned chunk is NOT trimmed — it still carries its leading and
trailing whitespace. -/
theorem C5_chunk_cex :
    ¬ ∀ c ∈ chunk_text [' ', 'a', ' '] 500 50, pyStrip c = c := by
  decide

/-- C5 (amended): for nonempty input and progress-making parameters
(`0 < maxChars`, `overlap ≤ maxChars / 2`), `chunk_text` returns a
nonempty list of chunks whose windows cover every position of the input
(no content is skipped between windows); each chunk is trimmed on the
SPLITTING path (`len(text) > maxChars`) — the short path returns the
input verbatim, untrimmed. -/
theorem C5_chunk_cover (t : List Char) (maxChars overlap : ℕ)
    (hne : t ≠ []) (hmax : 0 < maxChars) (hov : overlap ≤ maxChars / 2) :
    chunk_text t maxChars overlap ≠ [] ∧
    (∀ p < t.length, ∃ se ∈ chunkSpans t maxChars overlap, se.1 ≤ p ∧ p < se.2) ∧
    (maxChars < t.length → ∀ c ∈ chunk_text t maxChars overlap, pyStrip c = c) := by
  have hpos : 0 < t.length := List.length_pos.mpr hne
  refine ⟨?_, ?_, ?_⟩
  · unfold chunk_text
    by_cases hshort : t.length ≤ maxChars
    · rw [if_pos hshort]
      simp
    · rw [if_neg hshort]
      obtain ⟨n, hn⟩ := Nat.exists_eq_succ_of_ne_zero (Nat.pos_iff_ne_zero.mp hpos)
      rw [hn]
      simp only [chunkTextAux]
      rw [if_pos hpos]
      simp
  · intro p hp
    unfold chunkSpans
    by_cases hshort : t.length ≤ maxChars
    · rw [if_pos hshort]
      exact ⟨(0, t.length), by simp, Nat.zero_le p, hp⟩
    · rw [if_neg hshort]
      exact chunkSpansAux_cover t maxChars overlap hmax hov t.length 0 (by omega) p
        (Nat.zero_le p) hp
  · intro hlong c hc
    unfold chunk_text at hc
    rw [if_neg (by omega), chunkTextAux_eq_map] at hc
    obtain ⟨se, _, hse⟩ := List.mem_map.mp hc
    rw [← hse]
    exact pyStrip_idem _

/-- Witness for C5 at the concrete input `"ab"` with `maxChars = 1`,
`overlap = 0` (the splitting path: the result is `["a", "b"]`). -/
theorem C5_chunk_cover_witness :
    ((['a', 'b'] : List Char) ≠ [] ∧ 0 < 1 ∧ 0 ≤ 1 / 2) ∧
    (chunk_text ['a', 'b'] 1 0 ≠ [] ∧
      (∀ p < (['a', 'b'] : List Char).length,
        ∃ se ∈ chunkSpans ['a', 'b'] 1 0, se.1 ≤ p ∧ p < se.2) ∧
      (1 < (['a', 'b'] : List Char).length →
        ∀ c ∈ chunk_text ['a', 'b'] 1 0, pyStrip c = c)) :=
  ⟨⟨by decide, by decide, by decide⟩,
   C5_chunk_cover ['a', 'b'] 1 0 (by decide) (by decide) (by decide)⟩

/-! Claim C6 -/

lemma rfindSub_none (t sub : List Char) (s e : ℕ)
    (h : ∀ i, matchesAt t sub i = false) : rfindSub t sub s e = none := by
  unfold rfindSub
  rw [List.filter_eq_nil_iff.mpr (fun i _ => by simp [h i])]
  rfl

lemma nextEnd_no_breaks (t : List Char) (mc s : ℕ)
    (h1 : ∀ i, matchesAt t ['\n', '\n'] i = false)
    (h2 : ∀ i, matchesAt t ['.', ' '] i = false) :
    nextEnd t mc s = s + mc := by
  unfold nextEnd nextEndPeriod
  rw [rfindSub_none t _ s (s + mc) h1, rfindSub_none t _ s (s + mc) h2]
  split <;> rfl

/-- C6: on ANY 1200-character input with no paragraph break and no
sentence boundary, `chunk_text 500 50` walks the fixed window schedule
`[0, 500)`, `[450, 950)`, `[900, 1200)`: the window starts are exactly
`0, 450, 900` — each window after the first starting exactly
`500 - 50 = 450` characters after the previous one — and every returned
chunk is at most 500 characters long. -/
theorem C6_windows (t : List Char) (hlen : t.length = 1200)
    (h1 : ∀ i, matchesAt t ['\n', '\n'] i = false)
    (h2 : ∀ i, matchesAt t ['.', ' '] i = false) :
    (chunkSpans t 500 50).map Prod.fst = [0, 450, 900] ∧
    ∀ c ∈ chunk_text t 500 50, c.length ≤ 500 := by
  have hnx : ∀ s, nextEnd t 500 s = s + 500 := fun s => nextEnd_no_breaks t 500 s h1 h2
  have e0 : chunkSpansAux t 500 50 1200 0 = (0, 500) :: chunkSpansAux t 500 50 1199 450 := by
    rw [show (1200 : ℕ) = 1199 + 1 from rfl, chunkSpansAux_succ_pos (by omega), hnx 0]
  have e1 : chunkSpansAux t 500 50 1199 450 =
      (450, 950) :: chunkSpansAux t 500 50 1198 900 := by
    rw [show (1199 : ℕ) = 1198 + 1 from rfl, chunkSpansAux_succ_pos (by omega), hnx 450]
  have e2 : chunkSpansAux t 500 50 1198 900 =
      (900, 1400) :: chunkSpansAux t 500 50 1197 1350 := by
    rw [show (1198 : ℕ) = 1197 + 1 from rfl, chunkSpansAux_succ_pos (by omega), hnx 900]
  have e3 : chunkSpansAux t 500 50 1197 1350 = [] := by
    rw [show (1197 : ℕ) = 1196 + 1 from rfl, chunkSpansAux_stop (by omega)]
  have hspans : chunkSpans t 500 50 = [(0, 500), (450, 950), (900, 1400)] := by
    unfold chunkSpans
    rw [if_neg (by omega), hlen, e0, e1, e2, e3]
  constructor
  · rw [hspans]
    rfl
  · intro c hc
    unfold chunk_text at hc
    rw [if_neg (by omega), chunkTextAux_eq_map, hlen, e0, e1, e2, e3] at hc
    simp only [List.map_cons, List.map_nil, List.mem_cons, List.not_mem_nil, or_false] at hc
    have hb : ∀ s e : ℕ, e - s ≤ 500 → (pyStrip (pySlice t s e)).length ≤ 500 := by
      intro s e he
      have := pyStrip_length_le (pySlice t s e)
      have := pySlice_length_le t s e
      omega
    rcases hc with rfl | rfl | rfl
    · exact hb 0 500 (by norm_num)
    · exact hb 450 950 (by norm_num)
    · exact hb 900 1400 (by norm_num)

lemma replicate_beq_pair_ne {c d e : Char} (hcd : c ≠ d) :
    ∀ m, (List.replicate m c == [d, e]) = false := by
  intro m
  match m with
  | 0 => rfl
  | 1 =>
      show (c == d && ([] == [e])) = false
      simp
  | k + 2 =>
      show (c == d && (List.replicate (k + 1) c == [e])) = false
      simp [beq_eq_false_iff_ne.mpr hcd]

/-- Witness for C6 at the concrete input of 1200 letters `a`. -/
theorem C6_windows_witness :
    ((List.replicate 1200 'a').length = 1200 ∧
      (∀ i, matchesAt (List.replicate 1200 'a') ['\n', '\n'] i = false) ∧
      (∀ i, matchesAt (List.replicate 1200 'a') ['.', ' '] i = false)) ∧
    ((chunkSpans (List.replicate 1200 'a') 500 50).map Prod.fst = [0, 450, 900] ∧
      ∀ c ∈ chunk_text (List.replicate 1200 'a') 500 50, c.length ≤ 500) := by
  have hm1 : ∀ i, matchesAt (List.replicate 1200 'a') ['\n', '\n'] i = false := by
    intro i
    unfold matchesAt
    rw [List.drop_replicate, List.take_replicate]
    exact replicate_beq_pair_ne (by decide) _
  have hm2 : ∀ i, matchesAt (List.replicate 1200 'a') ['.', ' '] i = false := by
    intro i
    unfold matchesAt
    rw [List.drop_replicate, List.take_replicate]
    exact replicate_beq_pair_ne (by decide) _
  exact ⟨⟨by simp, hm1, hm2⟩, C6_windows _ (by simp) hm1 hm2⟩

end OpenclawMemory
